import Mathlib

/-!
Verification of the rust-multiaddr codec: a shallow embedding of
`src/protocol.rs` and `src/lib.rs` (the protocol registry and the
text ↔ bytes Multiaddr codec), with theorems settling the spec claims.

Modelling conventions:
* Rust `u8` byte buffers are `List Nat`; wherever the source reads a byte
  it is taken modulo 256, matching the unrepresentability of larger values.
* Rust `&str` values are `List Char`.
* Machine-integer casts are explicit `% 2^w` (`as u16` is `% 65536`,
  `as u32` is `% 4294967296`).
* Fallible Rust code returns `Except`/`Option`; code that can reach a Rust
  `panic!` family macro (`unimplemented!()`, `unreachable!()`) returns a
  result type with an explicit `panicked` outcome.
* External collaborator crates (varint, rust-multihash, std address/int
  parsers) are modelled from the contracts the specification states for
  them; each such definition's doc comment says so.
-/

/-- Protocol tags from `src/protocol.rs` (`enum Protocol`), one constructor
per supported protocol. -/
inductive Protocol
  | IP4
  | TCP
  | UDP
  | DCCP
  | IP6
  | SCTP
  | UTP
  | UDT
  | IPFS
  | HTTP
  | HTTPS
  | ONION
deriving DecidableEq, Repr

/-- Numeric code of each tag, from the discriminant values in
`enum Protocol` (`IP4 = 4`, …) and `impl From<Protocol> for u16`. -/
def Protocol.code : Protocol → Nat
  | .IP4 => 4
  | .TCP => 6
  | .UDP => 17
  | .DCCP => 33
  | .IP6 => 41
  | .SCTP => 132
  | .UTP => 301
  | .UDT => 302
  | .IPFS => 421
  | .HTTP => 480
  | .HTTPS => 443
  | .ONION => 444

/-- Size class of an address value, from `enum Size` in `src/protocol.rs`. -/
inductive Size
  | Fixed (n : Nat)
  | Variable
deriving DecidableEq, Repr

/-- Size table from `Protocol::size` in `src/protocol.rs`. -/
def Protocol.size : Protocol → Size
  | .IP4 => .Fixed 4
  | .TCP => .Fixed 2
  | .UDP => .Fixed 2
  | .DCCP => .Fixed 2
  | .IP6 => .Fixed 16
  | .SCTP => .Fixed 2
  | .UTP => .Fixed 0
  | .UDT => .Fixed 0
  | .IPFS => .Variable
  | .HTTP => .Fixed 0
  | .HTTPS => .Fixed 0
  | .ONION => .Fixed 10

/-- Name lookup from `impl FromStr for Protocol` in `src/protocol.rs`
(exact, case-sensitive match). -/
def Protocol.from_str (s : List Char) : Option Protocol :=
  if s = "ip4".toList then some .IP4
  else if s = "tcp".toList then some .TCP
  else if s = "udp".toList then some .UDP
  else if s = "dccp".toList then some .DCCP
  else if s = "ip6".toList then some .IP6
  else if s = "sctp".toList then some .SCTP
  else if s = "utp".toList then some .UTP
  else if s = "udt".toList then some .UDT
  else if s = "ipfs".toList then some .IPFS
  else if s = "http".toList then some .HTTP
  else if s = "https".toList then some .HTTPS
  else if s = "onion".toList then some .ONION
  else none

/-- Code lookup from `Protocol::from_code` in `src/protocol.rs`. -/
def Protocol.from_code (c : Nat) : Option Protocol :=
  if c = 4 then some .IP4
  else if c = 6 then some .TCP
  else if c = 17 then some .UDP
  else if c = 33 then some .DCCP
  else if c = 41 then some .IP6
  else if c = 132 then some .SCTP
  else if c = 301 then some .UTP
  else if c = 302 then some .UDT
  else if c = 421 then some .IPFS
  else if c = 480 then some .HTTP
  else if c = 443 then some .HTTPS
  else if c = 444 then some .ONION
  else none

/-- Display name from `Protocol::to_str` in `src/protocol.rs`. -/
def Protocol.to_str : Protocol → String
  | .IP4 => "ip4"
  | .TCP => "tcp"
  | .UDP => "udp"
  | .DCCP => "dccp"
  | .IP6 => "ip6"
  | .SCTP => "sctp"
  | .UTP => "utp"
  | .UDT => "udt"
  | .IPFS => "ipfs"
  | .HTTP => "http"
  | .HTTPS => "https"
  | .ONION => "onion"

/-- Modelled from the spec: the external varint crate's
`write_unsigned_varint_32` (unsigned LEB128: 7 payload bits per byte,
high bit set on all but the final byte, least-significant group first).
Fuel-based so the definition is structurally recursive; `encodeVarint`
supplies sufficient fuel. -/
def encodeVarintAux : Nat → Nat → List Nat
  | 0, n => [n % 128]
  | f + 1, n => if n < 128 then [n] else (n % 128 + 128) :: encodeVarintAux f (n / 128)

/-- LEB128 encoding of `n` (sufficient fuel: the value shrinks by a factor
of 128 every byte). -/
def encodeVarint (n : Nat) : List Nat :=
  encodeVarintAux n n

/-- Modelled from the spec: the external varint crate's
`read_unsigned_varint_32` on a byte slice, returning the raw accumulated
value and the unconsumed tail; `none` models the io error on end-of-input
mid-varint. Callers apply the `u32` cast (`% 2^32`) as the contract
states the value is a `u32`. -/
def decodeVarintRaw : List Nat → Option (Nat × List Nat)
  | [] => none
  | b :: rest =>
    let b0 := b % 256
    if b0 < 128 then some (b0, rest)
    else
      match decodeVarintRaw rest with
      | none => none
      | some (v, r) => some (b0 % 128 + 128 * v, r)

/-- Splitting a character list on a separator, matching Rust's
`str::split` (always returns at least one element; `""` splits to
`[""]`, `"/"` splits to `["", ""]`). -/
def splitOnChar (sep : Char) : List Char → List (List Char)
  | [] => [[]]
  | c :: rest =>
    match splitOnChar sep rest with
    | [] => [[]]
    | h :: t => if c = sep then [] :: h :: t else (c :: h) :: t

/-- Rust's `str::trim_right_matches('/')`: removes every trailing `/`. -/
def trimRightSlashes (s : List Char) : List Char :=
  (s.reverse.dropWhile (fun c => c = '/')).reverse

/-- Modelled from the spec: digit-folding core of Rust's
`u16::from_str` (external std collaborator). Accumulates decimal digits
with the per-step overflow check of `from_str_radix`; any non-digit or a
value above 65535 fails. -/
def parseDigitsU16 : List Char → Nat → Option Nat
  | [], acc => some acc
  | c :: rest, acc =>
    if c.isDigit then
      let a := acc * 10 + (c.toNat - 48)
      if a ≤ 65535 then parseDigitsU16 rest a else none
    else none

/-- Modelled from the spec: Rust's `u16::from_str` ("not a valid unsigned
16-bit integer" fails: empty input, a sign other than one leading plus,
any non-digit, or a value above 65535). -/
def parseU16 (s : List Char) : Option Nat :=
  match s with
  | [] => none
  | '+' :: rest => if rest = [] then none else parseDigitsU16 rest 0
  | _ => parseDigitsU16 s 0

/-- Modelled from the spec: one dotted-quad component for the external
`Ipv4Addr::from_str` collaborator — a non-empty all-digit string whose
value is at most 255. -/
def parseOctet (s : List Char) : Option Nat :=
  match s with
  | [] => none
  | _ =>
    let rec go : List Char → Nat → Option Nat
      | [], acc => some acc
      | c :: rest, acc =>
        if c.isDigit then
          let a := acc * 10 + (c.toNat - 48)
          if a ≤ 255 then go rest a else none
        else none
    go s 0

/-- Modelled from the spec: the external `Ipv4Addr::from_str` collaborator
composed with `write_ip4_to_vec` from `src/lib.rs` — a dotted-quad literal
becomes exactly 4 bytes in network order. -/
def parseIpv4 (s : List Char) : Option (List Nat) :=
  match (splitOnChar '.' s).mapM parseOctet with
  | none => none
  | some xs => if xs.length = 4 then some xs else none

/-- Modelled from the spec: one 16-bit hexadecimal group of an IPv6
literal (1 to 4 hex digits) for the external `Ipv6Addr::from_str`
collaborator. -/
def parseHexGroup (s : List Char) : Option Nat :=
  match s with
  | [] => none
  | _ =>
    if s.length ≤ 4 then
      let rec go : List Char → Nat → Option Nat
        | [], acc => some acc
        | c :: rest, acc =>
          if c.isDigit then go rest (acc * 16 + (c.toNat - 48))
          else if 'a' ≤ c ∧ c ≤ 'f' then go rest (acc * 16 + (c.toNat - 87))
          else if 'A' ≤ c ∧ c ≤ 'F' then go rest (acc * 16 + (c.toNat - 55))
          else none
      go s 0
    else none

/-- Big-endian byte pair of a 16-bit group, matching `write_ip6_to_vec`
in `src/lib.rs` (`write_u16::<BigEndian>` per segment). -/
def groupBytes (g : List Nat) : List Nat :=
  g.flatMap (fun x => [x / 256, x % 256])

/-- Modelled from the spec: the external `Ipv6Addr::from_str` collaborator
composed with `write_ip6_to_vec` from `src/lib.rs`. Parses colon-separated
hexadecimal groups with at most one `::` zero-run abbreviation into exactly
8 groups, then emits 8 big-endian 2-byte pairs (16 bytes). The model omits
the embedded-IPv4 tail form, which no claim exercises. -/
def parseIpv6 (s : List Char) : Option (List Nat) :=
  let ps := splitOnChar ':' s
  let groups? : Option (List Nat) :=
    if ps.contains [] then
      -- normalize a leading or trailing "::" (which splits into two
      -- adjacent empty components) down to a single empty component
      let ps1 := match ps with
        | [] :: [] :: rest => [] :: rest
        | other => other
      let ps2 := (match ps1.reverse with
        | [] :: [] :: rest => [] :: rest
        | other => other).reverse
      let pre := ps2.takeWhile (fun g => g ≠ [])
      match ps2.dropWhile (fun g => g ≠ []) with
      | [] => none
      | [] :: suf =>
        if suf.contains [] then none
        else
          match pre.mapM parseHexGroup, suf.mapM parseHexGroup with
          | some gpre, some gsuf =>
            if gpre.length + gsuf.length ≤ 7 then
              some (gpre ++ List.replicate (8 - (gpre.length + gsuf.length)) 0 ++ gsuf)
            else none
          | _, _ => none
      | _ :: _ => none
    else
      ps.mapM parseHexGroup
  match groups? with
  | none => none
  | some g => if g.length = 8 then some (groupBytes g) else none

/-- Modelled from the spec: big-endian base-256 digits of a natural
number, used by the base58 decoder model. Fuel-based for structural
recursion; `natToBEBytes` supplies sufficient fuel. -/
def natToBEBytesAux : Nat → Nat → List Nat
  | 0, _ => []
  | f + 1, n => if n = 0 then [] else natToBEBytesAux f (n / 256) ++ [n % 256]

/-- Big-endian bytes of `n` (empty for zero). -/
def natToBEBytes (n : Nat) : List Nat :=
  natToBEBytesAux n n

/-- Modelled from the spec: the bitcoin-alphabet base58 digit table used
by the external multihash decoder. -/
def base58Digit (c : Char) : Option Nat :=
  let alphabet := "123456789ABCDEFGHJKLMNPQRSTUVWXYZabcdefghijkmnopqrstuvwxyz".toList
  let rec go : List Char → Nat → Option Nat
    | [], _ => none
    | a :: rest, i => if a = c then some i else go rest (i + 1)
  go alphabet 0

/-- Modelled from the spec: plain base58 decoding (value fold plus one
leading zero byte per leading alphabet-zero character), the textual half
of the external `Multihash::from_base58_str` collaborator. -/
def base58Decode (s : List Char) : Option (List Nat) :=
  match s with
  | [] => none
  | _ =>
    match s.mapM base58Digit with
    | none => none
    | some digits =>
      let n := digits.foldl (fun a d => a * 58 + d) 0
      some (List.replicate (s.takeWhile (fun c => c = '1')).length 0 ++ natToBEBytes n)

/-- Modelled from the spec: hash-function codes the external multihash
decoder recognizes. -/
def isHashCode (c : Nat) : Bool :=
  c = 17 || c = 18 || c = 19 || c = 20 || c = 64 || c = 65

/-- Modelled from the spec: the external `Multihash::from_base58_str`
collaborator — base58-decode, then check the multihash structure
(hash-function id byte, digest-length byte, digest of exactly that
length). Returns the raw multihash bytes (`into_bytes`). -/
def mhFromBase58 (s : List Char) : Option (List Nat) :=
  match base58Decode s with
  | none => none
  | some bytes =>
    match bytes with
    | code :: len :: digest =>
      if isHashCode code ∧ len < 256 ∧ digest.length = len then some (code :: len :: digest)
      else none
    | _ => none

/-- Outcome of Rust code that may succeed, return an error, or reach a
`panic!`-family macro (`unimplemented!()`, `unreachable!()`). -/
inductive Res (ε : Type) (α : Type)
  | ok (a : α)
  | err (e : ε)
  | panicked
deriving DecidableEq, Repr

/-- Error type from `enum ParseError` in `src/lib.rs`. -/
inductive ParseError
  | InvalidCode (msg : String)
  | InvalidAddress (msg : String)
  | Other (msg : String)
deriving DecidableEq, Repr

/-- ASCII apostrophe, used to spell source error messages that quote the
slash character. -/
def squote : Char := Char.ofNat 39

/-- Message of the leading-slash check in `parse_str_to_bytes`
(`src/lib.rs` line 100). -/
def beginSlashMsg : String :=
  "Multiaddr must begin with " ++ String.mk [squote, '/', squote]

/-- Per-protocol address conversion, from `address_string_to_bytes` in
`src/lib.rs`: ip4/ip6 via the std literal parsers and the `write_*_to_vec`
helpers, ipfs via the multihash decoder plus a varint length prefix
(`bytes.len() as u32`), ports via `u16` parsing written big-endian,
`ONION => unimplemented!()`, and all other (addressless) protocols
`_ => unreachable!()`. Error strings for the delegated external parsers
are abbreviated (no claim inspects them). -/
def address_string_to_bytes (s : List Char) (proto : Protocol) : Res String (List Nat) :=
  match proto with
  | .IP4 =>
    match parseIpv4 s with
    | none => .err "Error parsing ip4 address: invalid IP address syntax"
    | some v => .ok v
  | .IP6 =>
    match parseIpv6 s with
    | none => .err "Error parsing ip6 address: invalid IP address syntax"
    | some v => .ok v
  | .IPFS =>
    match mhFromBase58 s with
    | none => .err "Error parsing multihash"
    | some mb => .ok (encodeVarint (mb.length % 4294967296) ++ mb)
  | .TCP | .UDP | .SCTP | .DCCP =>
    match parseU16 s with
    | none => .err "Error parsing tcp/udp/sctp/dccp port number: invalid digit"
    | some port => .ok [port / 256, port % 256]
  | .ONION => .panicked
  | _ => .panicked

/-- Segment walk of `parse_str_to_bytes` in `src/lib.rs` (the
`while segs.len() > 0` loop), carrying the accumulated output buffer:
look the segment up as a protocol name, skip emission entirely for
`Fixed(0)` size class, otherwise require and convert an address segment
and append `varint(code) ++ address bytes`. -/
def parseSegs : List (List Char) → List Nat → Res ParseError (List Nat)
  | [], acc => .ok acc
  | seg :: rest, acc =>
    match Protocol.from_str seg with
    | none => .err (.InvalidCode ("Invalid protocol: " ++ seg.asString))
    | some p =>
      match p.size with
      | .Fixed 0 => parseSegs rest acc
      | _ =>
        match rest with
        | [] => .err (.InvalidAddress ("Address not found for protocol " ++ p.to_str))
        | a :: rest2 =>
          match address_string_to_bytes a p with
          | .panicked => .panicked
          | .err e => .err (.InvalidAddress e)
          | .ok bytes => parseSegs rest2 (acc ++ encodeVarint p.code ++ bytes)

/-- Entry point `parse_str_to_bytes` from `src/lib.rs`: strip every
trailing slash, split on slash, demand an empty first component, then
walk the remaining segments. -/
def parse_str_to_bytes (s : List Char) : Res ParseError (List Nat) :=
  match splitOnChar '/' (trimRightSlashes s) with
  | [] => .panicked
  | first :: segs =>
    if first = [] then parseSegs segs []
    else .err (.Other beginSlashMsg)

/-- Truncation message of `verify_multiaddr_bytes` in `src/lib.rs`
("Unexpected end of bytes, expected {addr_size} more, found {len}"). -/
def truncMsg (expected found : Nat) : String :=
  "Unexpected end of bytes, expected " ++ toString expected ++ " more, found " ++ toString found

/-- One record body of `verify_multiaddr_bytes` in `src/lib.rs`, after the
leading code varint has been read: cast the value `as u16`, resolve it,
and skip the record's address bytes per size class (`Fixed(0)` skips
nothing; `Fixed(n)` demands and drops `n` bytes; `Variable` reads a length
varint, capped `as u32` by the collaborator contract, and demands and
drops that many bytes). Returns the unconsumed remainder. -/
def skipAddr (v : Nat) (r : List Nat) : Except ParseError (List Nat) :=
  let code := v % 65536
  match Protocol.from_code code with
  | none => .error (.InvalidCode ("Invalid protocol type code: " ++ toString code))
  | some p =>
    match p.size with
    | .Fixed 0 => .ok r
    | .Fixed n =>
      if r.length < n then .error (.InvalidAddress (truncMsg n r.length))
      else .ok (r.drop n)
    | .Variable =>
      match decodeVarintRaw r with
      | none => .error (.InvalidAddress "Error reading varint: unexpected end of bytes")
      | some (len0, r2) =>
        let len := len0 % 4294967296
        if r2.length < len then .error (.InvalidAddress (truncMsg len r2.length))
        else .ok (r2.drop len)

/-- Fuel-based loop of `verify_multiaddr_bytes` in `src/lib.rs`
(`while bytes.len() > 0`): read the code varint, then `skipAddr`. Every
iteration consumes at least the one leading varint byte, so fuel equal to
the buffer length (supplied by `verify_multiaddr_bytes`) always suffices;
the zero-fuel arm on a non-empty buffer is unreachable under that fuel. -/
def verifyAux : Nat → List Nat → Except ParseError Unit
  | _, [] => .ok ()
  | 0, _ :: _ => .error (.Other "out of fuel")
  | f + 1, b :: bs =>
    match decodeVarintRaw (b :: bs) with
    | none => .error (.InvalidCode "Error reading varint: unexpected end of bytes")
    | some (v, r) =>
      match skipAddr v r with
      | .error e => .error e
      | .ok r2 => verifyAux f r2

/-- Structural validator `verify_multiaddr_bytes` from `src/lib.rs`. -/
def verify_multiaddr_bytes (bytes : List Nat) : Except ParseError Unit :=
  verifyAux bytes.length bytes

/-- The `Multiaddr` struct from `src/lib.rs`: an opaque byte buffer. -/
structure Multiaddr where
  bytes : List Nat
deriving DecidableEq, Repr

/-- Constructor `Multiaddr::from_bytes` from `src/lib.rs`: validate, then
wrap the unmodified buffer. -/
def Multiaddr.from_bytes (b : List Nat) : Except ParseError Multiaddr :=
  match verify_multiaddr_bytes b with
  | .error e => .error e
  | .ok _ => .ok ⟨b⟩

/-- Accessor `Multiaddr::as_bytes` from `src/lib.rs`. -/
def Multiaddr.as_bytes (m : Multiaddr) : List Nat :=
  m.bytes

/-- Equality from `impl PartialEq for Multiaddr` in `src/lib.rs`:
element-wise iterator equality of the byte buffers. -/
def Multiaddr.eq (a b : Multiaddr) : Bool :=
  a.bytes == b.bytes

deriving instance DecidableEq for Except

/-- A varint encoding is never empty. -/
theorem encodeVarintAux_ne_nil (f n : Nat) : encodeVarintAux f n ≠ [] := by
  cases f with
  | zero => simp [encodeVarintAux]
  | succ f =>
    simp only [encodeVarintAux]
    split <;> simp

/-- A varint encoding is never empty. -/
theorem encodeVarint_ne_nil (n : Nat) : encodeVarint n ≠ [] :=
  encodeVarintAux_ne_nil n n

/-- Decoding an encoded varint returns the value and leaves trailing
bytes untouched, provided the fuel covered the value. -/
theorem decode_encodeAux (f : Nat) :
    ∀ n rest, n ≤ f → decodeVarintRaw (encodeVarintAux f n ++ rest) = some (n, rest) := by
  induction f with
  | zero =>
    intro n rest hn
    interval_cases n
    simp [encodeVarintAux, decodeVarintRaw]
  | succ f ih =>
    intro n rest hn
    by_cases h : n < 128
    · simp only [encodeVarintAux, if_pos h, List.cons_append, List.nil_append]
      simp [decodeVarintRaw, Nat.mod_eq_of_lt (show n < 256 by omega), h]
    · have hd : n / 128 ≤ f := by
        have : n / 128 < n := Nat.div_lt_self (by omega) (by omega)
        omega
      have hb : (n % 128 + 128) % 256 = n % 128 + 128 := by
        have : n % 128 < 128 := Nat.mod_lt _ (by omega)
        omega
      simp only [encodeVarintAux, if_neg h, List.cons_append]
      simp only [decodeVarintRaw, hb]
      rw [if_neg (by omega), ih (n / 128) rest hd]
      have : (n % 128 + 128) % 128 = n % 128 := by omega
      simp [this, Nat.mod_add_div n 128]

/-- Decoding an encoded varint returns the value and leaves trailing
bytes untouched. -/
theorem decode_encode (n : Nat) (rest : List Nat) :
    decodeVarintRaw (encodeVarint n ++ rest) = some (n, rest) :=
  decode_encodeAux n n rest (Nat.le_refl n)

/-- The varint decoder consumes at least one byte. -/
theorem decodeVarintRaw_length :
    ∀ l v r, decodeVarintRaw l = some (v, r) → r.length < l.length := by
  intro l
  induction l with
  | nil => intro v r h; simp [decodeVarintRaw] at h
  | cons b bs ih =>
    intro v r h
    simp only [decodeVarintRaw] at h
    split at h
    · simp only [Option.some.injEq, Prod.mk.injEq] at h
      obtain ⟨-, rfl⟩ := h
      simp
    · cases hd : decodeVarintRaw bs with
      | none => rw [hd] at h; simp at h
      | some p =>
        obtain ⟨v2, r2⟩ := p
        rw [hd] at h
        simp only [Option.some.injEq, Prod.mk.injEq] at h
        obtain ⟨-, rfl⟩ := h
        have := ih v2 r2 hd
        simp only [List.length_cons]
        omega

/-- Skipping a record's address never grows the remaining buffer. -/
theorem skipAddr_length (v : Nat) (r r2 : List Nat) (h : skipAddr v r = .ok r2) :
    r2.length ≤ r.length := by
  simp only [skipAddr] at h
  cases hp : Protocol.from_code (v % 65536) with
  | none => simp only [hp] at h; exact Except.noConfusion h
  | some p =>
    simp only [hp] at h
    cases hs : p.size with
    | Fixed n =>
      rw [hs] at h
      cases n with
      | zero =>
        simp only [Except.ok.injEq] at h
        subst h
        exact Nat.le_refl _
      | succ m =>
        simp only at h
        split at h
        · simp at h
        · simp only [Except.ok.injEq] at h
          subst h
          simp
    | Variable =>
      rw [hs] at h
      simp only at h
      cases hd : decodeVarintRaw r with
      | none => rw [hd] at h; simp at h
      | some p2 =>
        obtain ⟨len0, rr⟩ := p2
        rw [hd] at h
        simp only at h
        split at h
        · simp at h
        · simp only [Except.ok.injEq] at h
          subst h
          have := decodeVarintRaw_length r len0 rr hd
          simp only [List.length_drop]
          omega

/-- The verifier accepts the empty buffer at any fuel. -/
theorem verifyAux_nil (f : Nat) : verifyAux f [] = .ok () := by
  cases f <;> rfl

/-- The verifier's result does not depend on the fuel, as long as the fuel
covers the buffer length. -/
theorem verifyAux_fuel (f1 : Nat) :
    ∀ f2 l, l.length ≤ f1 → l.length ≤ f2 → verifyAux f1 l = verifyAux f2 l := by
  induction f1 with
  | zero =>
    intro f2 l h1 h2
    have : l = [] := List.eq_nil_of_length_eq_zero (by omega)
    subst this
    rw [verifyAux_nil, verifyAux_nil]
  | succ f ih =>
    intro f2 l h1 h2
    cases l with
    | nil => rw [verifyAux_nil, verifyAux_nil]
    | cons b bs =>
      cases f2 with
      | zero => simp at h2
      | succ g =>
        simp only [verifyAux]
        cases hd : decodeVarintRaw (b :: bs) with
        | none => rfl
        | some p =>
          obtain ⟨v, r⟩ := p
          simp only
          cases hs : skipAddr v r with
          | error e => rfl
          | ok r2 =>
            simp only
            have hr := decodeVarintRaw_length _ v r hd
            have hr2 := skipAddr_length v r r2 hs
            simp only [List.length_cons] at h1 h2 hr
            exact ih g r2 (by omega) (by omega)

/-- Unfolding one verifier iteration on a buffer that starts with an
encoded varint. -/
theorem verifyAux_encode_cons (f c : Nat) (tail : List Nat) :
    verifyAux (f + 1) (encodeVarint c ++ tail) =
      match skipAddr c tail with
      | .error e => .error e
      | .ok r2 => verifyAux f r2 := by
  obtain ⟨b, t, hbt⟩ := List.exists_cons_of_ne_nil (encodeVarint_ne_nil c)
  have h1 : encodeVarint c ++ tail = b :: (t ++ tail) := by rw [hbt]; rfl
  have h2 : decodeVarintRaw (b :: (t ++ tail)) = some (c, tail) := by
    rw [← h1]; exact decode_encode c tail
  rw [h1]
  simp only [verifyAux, h2]

/-- Unfolding one verifier iteration when the record body skips cleanly. -/
theorem verifyAux_encode_cons_ok (f c : Nat) (tail r2 : List Nat)
    (h : skipAddr c tail = .ok r2) :
    verifyAux (f + 1) (encodeVarint c ++ tail) = verifyAux f r2 := by
  rw [verifyAux_encode_cons, h]

/-- Registry roundtrip: every tag's code, cast `as u16`, resolves back to
the tag (all codes are far below 65536). -/
theorem from_code_code (p : Protocol) : Protocol.from_code (p.code % 65536) = some p := by
  cases p <;> decide

/-- Skipping a complete fixed-size record body consumes exactly its
address bytes. -/
theorem skipAddr_fixed (p : Protocol) (n : Nat) (hs : p.size = .Fixed n)
    (addr rest : List Nat) (hlen : addr.length = n) :
    skipAddr p.code (addr ++ rest) = .ok rest := by
  simp only [skipAddr, from_code_code, hs]
  cases n with
  | zero =>
    have : addr = [] := List.eq_nil_of_length_eq_zero hlen
    subst this
    rfl
  | succ m =>
    simp only
    rw [if_neg (by simp only [List.length_append]; omega)]
    rw [← hlen, List.drop_left]

/-- Skipping a complete variable-size record body (length varint plus that
many bytes) consumes exactly the record. -/
theorem skipAddr_var (p : Protocol) (hs : p.size = .Variable)
    (addr rest : List Nat) (hlen : addr.length < 4294967296) :
    skipAddr p.code (encodeVarint addr.length ++ (addr ++ rest)) = .ok rest := by
  simp only [skipAddr, from_code_code, hs, decode_encode]
  rw [Nat.mod_eq_of_lt hlen]
  rw [if_neg (by simp only [List.length_append]; omega)]
  rw [List.drop_left]

/-- Well-formed Multiaddr byte buffers: a concatenation of complete
records, each an encoded code varint followed by the address bytes its
size class demands (`Fixed n` records carry exactly `n` bytes, `Variable`
records a length varint and that many bytes). -/
inductive ValidChain : List Nat → Prop
  | nil : ValidChain []
  | fixed (p : Protocol) (n : Nat) (addr rest : List Nat) :
      p.size = .Fixed n → addr.length = n → ValidChain rest →
      ValidChain (encodeVarint p.code ++ addr ++ rest)
  | var (p : Protocol) (addr rest : List Nat) :
      p.size = .Variable → addr.length < 4294967296 → ValidChain rest →
      ValidChain (encodeVarint p.code ++ encodeVarint addr.length ++ addr ++ rest)

/-- The verifier walks over a well-formed prefix without failing and
continues on the suffix unchanged. -/
theorem chain_verify {pre : List Nat} (hv : ValidChain pre) :
    ∀ suffix, verify_multiaddr_bytes (pre ++ suffix) = verify_multiaddr_bytes suffix := by
  induction hv with
  | nil => intro suffix; rfl
  | fixed p n addr rest hs hlen hrest ih =>
    intro suffix
    have hassoc : (encodeVarint p.code ++ addr ++ rest) ++ suffix
        = encodeVarint p.code ++ (addr ++ (rest ++ suffix)) := by
      simp [List.append_assoc]
    unfold verify_multiaddr_bytes
    rw [hassoc]
    have henc : 0 < (encodeVarint p.code).length :=
      List.length_pos.mpr (encodeVarint_ne_nil _)
    have hN : (encodeVarint p.code ++ (addr ++ (rest ++ suffix))).length
        = ((encodeVarint p.code ++ (addr ++ (rest ++ suffix))).length - 1) + 1 := by
      simp only [List.length_append]
      omega
    rw [hN, verifyAux_encode_cons_ok _ _ _ _ (skipAddr_fixed p n hs addr (rest ++ suffix) hlen)]
    have hfuel : (rest ++ suffix).length
        ≤ (encodeVarint p.code ++ (addr ++ (rest ++ suffix))).length - 1 := by
      simp only [List.length_append]
      omega
    rw [verifyAux_fuel _ (rest ++ suffix).length _ hfuel (Nat.le_refl _)]
    exact ih suffix
  | var p addr rest hs hlen hrest ih =>
    intro suffix
    have hassoc : (encodeVarint p.code ++ encodeVarint addr.length ++ addr ++ rest) ++ suffix
        = encodeVarint p.code ++ (encodeVarint addr.length ++ (addr ++ (rest ++ suffix))) := by
      simp [List.append_assoc]
    unfold verify_multiaddr_bytes
    rw [hassoc]
    have henc : 0 < (encodeVarint p.code).length :=
      List.length_pos.mpr (encodeVarint_ne_nil _)
    have hN : (encodeVarint p.code ++ (encodeVarint addr.length ++ (addr ++ (rest ++ suffix)))).length
        = ((encodeVarint p.code ++ (encodeVarint addr.length ++ (addr ++ (rest ++ suffix)))).length - 1) + 1 := by
      simp only [List.length_append]
      omega
    rw [hN, verifyAux_encode_cons_ok _ _ _ _ (skipAddr_var p hs addr (rest ++ suffix) hlen)]
    have hfuel : (rest ++ suffix).length
        ≤ (encodeVarint p.code ++ (encodeVarint addr.length ++ (addr ++ (rest ++ suffix)))).length - 1 := by
      simp only [List.length_append]
      omega
    rw [verifyAux_fuel _ (rest ++ suffix).length _ hfuel (Nat.le_refl _)]
    exact ih suffix

/-- Appending well-formed buffers yields a well-formed buffer. -/
theorem ValidChain.append {a b : List Nat} (ha : ValidChain a) (hb : ValidChain b) :
    ValidChain (a ++ b) := by
  induction ha with
  | nil => exact hb
  | fixed p n addr rest hs hlen hrest ih =>
    have := ValidChain.fixed p n addr (rest ++ b) hs hlen ih
    simpa [List.append_assoc] using this
  | var p addr rest hs hlen hrest ih =>
    have := ValidChain.var p addr (rest ++ b) hs hlen ih
    simpa [List.append_assoc] using this

/-- A successfully parsed dotted quad is exactly 4 bytes. -/
theorem parseIpv4_length (s : List Char) (v : List Nat) (h : parseIpv4 s = some v) :
    v.length = 4 := by
  simp only [parseIpv4] at h
  cases hm : (splitOnChar '.' s).mapM parseOctet with
  | none => rw [hm] at h; exact Option.noConfusion h
  | some xs =>
    rw [hm] at h
    simp only at h
    split at h
    · simp only [Option.some.injEq] at h
      subst h
      assumption
    · exact Option.noConfusion h

/-- Flattening 16-bit groups into big-endian byte pairs doubles the
length. -/
theorem groupBytes_length (g : List Nat) : (groupBytes g).length = 2 * g.length := by
  induction g with
  | nil => rfl
  | cons x t ih =>
    simp only [groupBytes, List.flatMap_cons] at ih ⊢
    simp only [List.length_append, List.length_cons, List.length_nil, ih]
    omega

/-- A successfully parsed IPv6 literal is exactly 16 bytes. -/
theorem parseIpv6_length (s : List Char) (v : List Nat) (h : parseIpv6 s = some v) :
    v.length = 16 := by
  simp only [parseIpv6] at h
  split at h
  · exact Option.noConfusion h
  · rename_i g -- the `some g` arm
    split at h
    · simp only [Option.some.injEq] at h
      subst h
      rename_i hlen
      rw [groupBytes_length, hlen]
    · exact Option.noConfusion h

/-- The digit fold never exceeds 65535 when its accumulator starts within
bounds. -/
theorem parseDigitsU16_le :
    ∀ l acc n, acc ≤ 65535 → parseDigitsU16 l acc = some n → n ≤ 65535 := by
  intro l
  induction l with
  | nil =>
    intro acc n hacc h
    simp only [parseDigitsU16, Option.some.injEq] at h
    omega
  | cons c rest ih =>
    intro acc n hacc h
    simp only [parseDigitsU16] at h
    split at h
    · split at h
      · exact ih _ n (by omega) h
      · exact Option.noConfusion h
    · exact Option.noConfusion h

/-- A successfully parsed port is at most 65535. -/
theorem parseU16_le (s : List Char) (n : Nat) (h : parseU16 s = some n) : n ≤ 65535 := by
  simp only [parseU16] at h
  split at h
  · exact Option.noConfusion h
  · split at h
    · exact Option.noConfusion h
    · exact parseDigitsU16_le _ 0 n (by omega) h
  · exact parseDigitsU16_le _ 0 n (by omega) h

/-- A decoded multihash blob is bounded (id byte, length byte below 256,
and a digest of exactly that length), so far below the `u32` limit. -/
theorem mhFromBase58_length (s : List Char) (mb : List Nat)
    (h : mhFromBase58 s = some mb) : mb.length < 4294967296 := by
  simp only [mhFromBase58] at h
  split at h
  · exact Option.noConfusion h
  · split at h
    · rename_i code len digest
      split at h
      · simp only [Option.some.injEq] at h
        subst h
        rename_i hcond
        obtain ⟨-, hlen, hdig⟩ := hcond
        simp only [List.length_cons, hdig]
        omega
      · exact Option.noConfusion h
    · exact Option.noConfusion h

/-- Every record the parser emits — code varint plus converted address
bytes — is a complete well-formed record. -/
theorem addr_record_valid (p : Protocol) (s : List Char) (v : List Nat)
    (h : address_string_to_bytes s p = .ok v) :
    ValidChain (encodeVarint p.code ++ v) := by
  cases p with
  | IP4 =>
    simp only [address_string_to_bytes] at h
    cases hm : parseIpv4 s with
    | none => rw [hm] at h; exact Res.noConfusion h
    | some w =>
      rw [hm] at h
      simp only [Res.ok.injEq] at h
      subst h
      have := ValidChain.fixed .IP4 4 w [] rfl (parseIpv4_length s w hm) ValidChain.nil
      simpa using this
  | IP6 =>
    simp only [address_string_to_bytes] at h
    cases hm : parseIpv6 s with
    | none => rw [hm] at h; exact Res.noConfusion h
    | some w =>
      rw [hm] at h
      simp only [Res.ok.injEq] at h
      subst h
      have := ValidChain.fixed .IP6 16 w [] rfl (parseIpv6_length s w hm) ValidChain.nil
      simpa using this
  | IPFS =>
    simp only [address_string_to_bytes] at h
    cases hm : mhFromBase58 s with
    | none => rw [hm] at h; exact Res.noConfusion h
    | some mb =>
      rw [hm] at h
      simp only [Res.ok.injEq] at h
      subst h
      have hlt := mhFromBase58_length s mb hm
      have := ValidChain.var .IPFS mb [] rfl hlt ValidChain.nil
      rw [Nat.mod_eq_of_lt hlt]
      simpa [List.append_assoc] using this
  | TCP =>
    simp only [address_string_to_bytes] at h
    cases hm : parseU16 s with
    | none => rw [hm] at h; exact Res.noConfusion h
    | some port =>
      rw [hm] at h
      simp only [Res.ok.injEq] at h
      subst h
      have := ValidChain.fixed .TCP 2 [port / 256, port % 256] [] rfl rfl ValidChain.nil
      simpa using this
  | UDP =>
    simp only [address_string_to_bytes] at h
    cases hm : parseU16 s with
    | none => rw [hm] at h; exact Res.noConfusion h
    | some port =>
      rw [hm] at h
      simp only [Res.ok.injEq] at h
      subst h
      have := ValidChain.fixed .UDP 2 [port / 256, port % 256] [] rfl rfl ValidChain.nil
      simpa using this
  | SCTP =>
    simp only [address_string_to_bytes] at h
    cases hm : parseU16 s with
    | none => rw [hm] at h; exact Res.noConfusion h
    | some port =>
      rw [hm] at h
      simp only [Res.ok.injEq] at h
      subst h
      have := ValidChain.fixed .SCTP 2 [port / 256, port % 256] [] rfl rfl ValidChain.nil
      simpa using this
  | DCCP =>
    simp only [address_string_to_bytes] at h
    cases hm : parseU16 s with
    | none => rw [hm] at h; exact Res.noConfusion h
    | some port =>
      rw [hm] at h
      simp only [Res.ok.injEq] at h
      subst h
      have := ValidChain.fixed .DCCP 2 [port / 256, port % 256] [] rfl rfl ValidChain.nil
      simpa using this
  | ONION => exact Res.noConfusion h
  | UTP => exact Res.noConfusion h
  | UDT => exact Res.noConfusion h
  | HTTP => exact Res.noConfusion h
  | HTTPS => exact Res.noConfusion h

/-- The segment walk preserves well-formedness of the output buffer: if
the accumulator is a well-formed record concatenation and the walk
succeeds, the result is well-formed too. -/
theorem parseSegs_valid :
    ∀ f segs acc out, segs.length ≤ f → ValidChain acc →
      parseSegs segs acc = .ok out → ValidChain out := by
  intro f
  induction f with
  | zero =>
    intro segs acc out hl hacc h
    have : segs = [] := List.eq_nil_of_length_eq_zero (by omega)
    subst this
    simp only [parseSegs, Res.ok.injEq] at h
    subst h
    exact hacc
  | succ f ih =>
    intro segs acc out hl hacc h
    cases segs with
    | nil =>
      simp only [parseSegs, Res.ok.injEq] at h
      subst h
      exact hacc
    | cons seg rest =>
      simp only [List.length_cons] at hl
      simp only [parseSegs] at h
      split at h
      · exact Res.noConfusion h
      · split at h
        · exact ih rest acc out (by omega) hacc h
        · split at h
          · exact Res.noConfusion h
          · split at h
            · exact Res.noConfusion h
            · exact Res.noConfusion h
            · rename_i bytes ha
              refine ih _ _ out ?_ ?_ h
              · simp only [List.length_cons] at hl
                omega
              · have := ValidChain.append hacc (addr_record_valid _ _ bytes ha)
                simpa [List.append_assoc] using this

/-- C4: for every path string the parser accepts, `from_bytes` on the
produced buffer succeeds and yields a Multiaddr with the identical byte
buffer. -/
theorem c4_roundtrip (s : List Char) (bytes : List Nat)
    (h : parse_str_to_bytes s = .ok bytes) :
    Multiaddr.from_bytes bytes = .ok ⟨bytes⟩ := by
  simp only [parse_str_to_bytes] at h
  cases hsp : splitOnChar '/' (trimRightSlashes s) with
  | nil => rw [hsp] at h; exact Res.noConfusion h
  | cons first segs =>
    rw [hsp] at h
    simp only at h
    split at h
    · have hv : ValidChain bytes :=
        parseSegs_valid segs.length segs [] bytes (Nat.le_refl _) ValidChain.nil h
      have hverify : verify_multiaddr_bytes bytes = .ok () := by
        have := chain_verify hv []
        simpa using this
      simp only [Multiaddr.from_bytes, hverify]
    · exact Res.noConfusion h

/-- Witness for C4 at the concrete accepted path `/ip4/1.2.3.4`. -/
theorem c4_roundtrip_witness :
    Multiaddr.from_bytes [4, 1, 2, 3, 4] = .ok ⟨[4, 1, 2, 3, 4]⟩ :=
  c4_roundtrip "/ip4/1.2.3.4".toList [4, 1, 2, 3, 4] (by decide)

/-- Dropping leading slashes from a replicated slash block reaches the
block's tail. -/
theorem dropWhile_replicate_append (n : Nat) (l : List Char) :
    (List.replicate n '/' ++ l).dropWhile (fun c => c = '/')
      = l.dropWhile (fun c => c = '/') := by
  induction n with
  | zero => rfl
  | succ m ih =>
    simp only [List.replicate_succ, List.cons_append, List.dropWhile_cons]
    simp

/-- Dropping a prefix by a predicate is idempotent. -/
theorem dropWhile_idem (p : Char → Bool) (l : List Char) :
    (l.dropWhile p).dropWhile p = l.dropWhile p := by
  induction l with
  | nil => rfl
  | cons a t ih =>
    by_cases h : p a
    · simp [List.dropWhile_cons, h, ih]
    · simp [List.dropWhile_cons, h]

/-- Appending trailing slashes does not change the trimmed string. -/
theorem trim_append_replicate (s : List Char) (n : Nat) :
    trimRightSlashes (s ++ List.replicate n '/') = trimRightSlashes s := by
  unfold trimRightSlashes
  rw [List.reverse_append, List.reverse_replicate, dropWhile_replicate_append]

/-- Trimming trailing slashes is idempotent. -/
theorem trim_idem (s : List Char) :
    trimRightSlashes (trimRightSlashes s) = trimRightSlashes s := by
  unfold trimRightSlashes
  rw [List.reverse_reverse, dropWhile_idem]

/-- C1: evaluation at the failing input. The parser does NOT emit
`varint(code)` for zero-width (`Fixed(0)`) protocols — the `continue` in
`parse_str_to_bytes` precedes every write — so `/tcp/1234/http` and
`/tcp/1234` produce identical byte encodings `[6, 4, 210]`, with no
`varint(480)` record for `http`, contradicting the claim that the two
encodings differ. -/
theorem c1_zero_width_record_dropped :
    parse_str_to_bytes "/tcp/1234/http".toList = .ok [6, 4, 210] ∧
    parse_str_to_bytes "/tcp/1234".toList = .ok [6, 4, 210] := by
  constructor
  · decide
  · decide

/-- C2: evaluation at the failing input. On an onion segment followed by
an address segment the parser reaches `ONION => unimplemented!()` in
`address_string_to_bytes` and panics, instead of returning an
`Unsupported(protocol_name)` error as the claim states. -/
theorem c2_onion_panics :
    parse_str_to_bytes "/onion/timaq4ygg2iegci7:80".toList = .panicked ∧
    address_string_to_bytes "timaq4ygg2iegci7:80".toList Protocol.ONION = .panicked := by
  constructor
  · decide
  · decide

/-- C5: evaluation at the failing input. A path that does not start with
a slash is rejected with the generic `ParseError::Other` kind (there is
no distinct `MalformedPath` kind in the code), contradicting the claim
of a distinct non-generic error kind. -/
theorem c5_no_leading_slash_generic_kind :
    parse_str_to_bytes "ip4/1.2.3.4".toList = .err (.Other beginSlashMsg) := by
  decide

/-- C3 counterexample: the buffer starting with the varint of 65540 — a
value that is not a registered protocol code — is nevertheless accepted
by `from_bytes`, because `verify_multiaddr_bytes` truncates the decoded
`u32` code `as u16` (65540 mod 65536 = 4 = ip4) before the registry
lookup. -/
theorem c3_counterexample_truncated_code_accepted :
    decodeVarintRaw [132, 128, 4, 1, 2, 3, 4] = some (65540, [1, 2, 3, 4]) ∧
    Protocol.from_code 65540 = none ∧
    Multiaddr.from_bytes [132, 128, 4, 1, 2, 3, 4] = .ok ⟨[132, 128, 4, 1, 2, 3, 4]⟩ := by
  refine ⟨by decide, by decide, by decide⟩

/-- C3 (amended): for every byte buffer beginning with an unsigned varint
whose decoded value reduced modulo 2^16 (the `as u16` cast in
`verify_multiaddr_bytes`) is not a registered protocol code, `from_bytes`
fails with the unknown-code error and accepts nothing. -/
theorem c3_unknown_code_rejected (c : Nat) (rest : List Nat)
    (h : Protocol.from_code (c % 65536) = none) :
    Multiaddr.from_bytes (encodeVarint c ++ rest)
      = .error (.InvalidCode ("Invalid protocol type code: " ++ toString (c % 65536))) := by
  have hskip : skipAddr c rest
      = .error (.InvalidCode ("Invalid protocol type code: " ++ toString (c % 65536))) := by
    simp only [skipAddr, h]
  have hN : (encodeVarint c ++ rest).length = ((encodeVarint c ++ rest).length - 1) + 1 := by
    have := List.length_pos.mpr (encodeVarint_ne_nil c)
    simp only [List.length_append]
    omega
  have hverify : verify_multiaddr_bytes (encodeVarint c ++ rest)
      = .error (.InvalidCode ("Invalid protocol type code: " ++ toString (c % 65536))) := by
    unfold verify_multiaddr_bytes
    rw [hN, verifyAux_encode_cons, hskip]
  simp only [Multiaddr.from_bytes, hverify]

/-- Witness for the amended C3 at the concrete unregistered code 1000. -/
theorem c3_unknown_code_rejected_witness :
    Multiaddr.from_bytes (encodeVarint 1000 ++ [])
      = .error (.InvalidCode ("Invalid protocol type code: " ++ toString (1000 % 65536))) :=
  c3_unknown_code_rejected 1000 [] (by decide)

/-- C6: a buffer that ends mid-record — a well-formed prefix followed by a
recognized fixed-size protocol code with fewer than the required address
bytes, or by a variable-size record whose declared length exceeds the
remaining bytes — is rejected by `from_bytes` with the truncation error
(the unexpected-end `InvalidAddress` message); the partial data is never
accepted. -/
theorem c6_truncated_record_rejected :
    (∀ pre p n rest, ValidChain pre → Protocol.size p = .Fixed n → 0 < n →
      rest.length < n →
      Multiaddr.from_bytes (pre ++ (encodeVarint p.code ++ rest))
        = .error (.InvalidAddress (truncMsg n rest.length))) ∧
    (∀ pre p L rest, ValidChain pre → Protocol.size p = .Variable →
      rest.length < L % 4294967296 →
      Multiaddr.from_bytes (pre ++ (encodeVarint p.code ++ (encodeVarint L ++ rest)))
        = .error (.InvalidAddress (truncMsg (L % 4294967296) rest.length))) := by
  constructor
  · intro pre p n rest hpre hs hn hlen
    have hskip : skipAddr p.code rest = .error (.InvalidAddress (truncMsg n rest.length)) := by
      simp only [skipAddr, from_code_code, hs]
      cases n with
      | zero => omega
      | succ m => simp only [if_pos hlen]
    have hN : (encodeVarint p.code ++ rest).length
        = ((encodeVarint p.code ++ rest).length - 1) + 1 := by
      have := List.length_pos.mpr (encodeVarint_ne_nil p.code)
      simp only [List.length_append]
      omega
    have hverify : verify_multiaddr_bytes (pre ++ (encodeVarint p.code ++ rest))
        = .error (.InvalidAddress (truncMsg n rest.length)) := by
      rw [chain_verify hpre]
      unfold verify_multiaddr_bytes
      rw [hN, verifyAux_encode_cons, hskip]
    simp only [Multiaddr.from_bytes, hverify]
  · intro pre p L rest hpre hs hlen
    have hskip : skipAddr p.code (encodeVarint L ++ rest)
        = .error (.InvalidAddress (truncMsg (L % 4294967296) rest.length)) := by
      simp only [skipAddr, from_code_code, hs, decode_encode]
      simp only [if_pos hlen]
    have hN : (encodeVarint p.code ++ (encodeVarint L ++ rest)).length
        = ((encodeVarint p.code ++ (encodeVarint L ++ rest)).length - 1) + 1 := by
      have := List.length_pos.mpr (encodeVarint_ne_nil p.code)
      simp only [List.length_append]
      omega
    have hverify : verify_multiaddr_bytes (pre ++ (encodeVarint p.code ++ (encodeVarint L ++ rest)))
        = .error (.InvalidAddress (truncMsg (L % 4294967296) rest.length)) := by
      rw [chain_verify hpre]
      unfold verify_multiaddr_bytes
      rw [hN, verifyAux_encode_cons, hskip]
    simp only [Multiaddr.from_bytes, hverify]

/-- Witness for C6: an ip4 record with only 2 of its 4 address bytes, and
an ipfs record declaring 5 bytes with only 2 remaining, are both rejected
with the truncation error. -/
theorem c6_truncated_record_rejected_witness :
    Multiaddr.from_bytes ([] ++ (encodeVarint (Protocol.code .IP4) ++ [1, 2]))
      = .error (.InvalidAddress (truncMsg 4 [1, 2].length)) ∧
    Multiaddr.from_bytes ([] ++ (encodeVarint (Protocol.code .IPFS) ++ (encodeVarint 5 ++ [1, 2])))
      = .error (.InvalidAddress (truncMsg (5 % 4294967296) [1, 2].length)) :=
  ⟨c6_truncated_record_rejected.1 [] .IP4 4 [1, 2] ValidChain.nil rfl (by decide) (by decide),
   c6_truncated_record_rejected.2 [] .IPFS 5 [1, 2] ValidChain.nil rfl (by decide)⟩

/-- C7: for tcp, udp, sctp and dccp the address conversion succeeds
exactly on valid unsigned 16-bit integers (per the modelled `u16` parse),
producing the 2-byte big-endian port; concretely `/tcp/0` and
`/tcp/65535` parse while `/tcp/65536` and the negative-port path fail. -/
theorem c7_port_conversion :
    (∀ p, (p = Protocol.TCP ∨ p = Protocol.UDP ∨ p = Protocol.SCTP ∨ p = Protocol.DCCP) →
      ∀ s v, address_string_to_bytes s p = .ok v ↔
        ∃ n, parseU16 s = some n ∧ n ≤ 65535 ∧ v = [n / 256, n % 256]) ∧
    parse_str_to_bytes "/tcp/0".toList = .ok [6, 0, 0] ∧
    parse_str_to_bytes "/tcp/65535".toList = .ok [6, 255, 255] ∧
    parse_str_to_bytes "/tcp/65536".toList
      = .err (.InvalidAddress "Error parsing tcp/udp/sctp/dccp port number: invalid digit") ∧
    parse_str_to_bytes "/tcp/-1".toList
      = .err (.InvalidAddress "Error parsing tcp/udp/sctp/dccp port number: invalid digit") := by
  refine ⟨?_, by decide, by decide, by decide, by decide⟩
  intro p hp s v
  constructor
  · intro h
    rcases hp with rfl | rfl | rfl | rfl <;>
    · simp only [address_string_to_bytes] at h
      cases hm : parseU16 s with
      | none => rw [hm] at h; exact Res.noConfusion h
      | some n =>
        rw [hm] at h
        simp only [Res.ok.injEq] at h
        exact ⟨n, rfl, parseU16_le s n hm, h.symm⟩
  · rintro ⟨n, hn, -, rfl⟩
    rcases hp with rfl | rfl | rfl | rfl <;> simp [address_string_to_bytes, hn]

/-- Witness for C7: converting the port string 80 for tcp yields the
big-endian pair. -/
theorem c7_port_conversion_witness :
    address_string_to_bytes "80".toList Protocol.TCP = .ok [0, 80] :=
  (c7_port_conversion.1 Protocol.TCP (Or.inl rfl) "80".toList [0, 80]).mpr
    ⟨80, by decide, by decide, by decide⟩

/-- C8: two Multiaddr values are equal exactly when their byte buffers
are identical; concretely, the textually different `/ip4/1.2.3.4` and
`/ip4/1.2.3.4/` convert to the same bytes and compare equal, while two
paths listing the same records in different order produce different
buffers and compare unequal. -/
theorem c8_equality_is_byte_equality :
    (∀ a b : Multiaddr, Multiaddr.eq a b = true ↔ a.bytes = b.bytes) ∧
    (parse_str_to_bytes "/ip4/1.2.3.4".toList = .ok [4, 1, 2, 3, 4] ∧
     parse_str_to_bytes "/ip4/1.2.3.4/".toList = .ok [4, 1, 2, 3, 4] ∧
     Multiaddr.eq ⟨[4, 1, 2, 3, 4]⟩ ⟨[4, 1, 2, 3, 4]⟩ = true) ∧
    (parse_str_to_bytes "/ip4/1.2.3.4/tcp/80".toList = .ok [4, 1, 2, 3, 4, 6, 0, 80] ∧
     parse_str_to_bytes "/tcp/80/ip4/1.2.3.4".toList = .ok [6, 0, 80, 4, 1, 2, 3, 4] ∧
     Multiaddr.eq ⟨[4, 1, 2, 3, 4, 6, 0, 80]⟩ ⟨[6, 0, 80, 4, 1, 2, 3, 4]⟩ = false) := by
  refine ⟨?_, by decide, by decide⟩
  intro a b
  simp [Multiaddr.eq]

/-- C9: the parser strips every trailing slash, not only one — parsing
any string followed by any number of slashes gives the same result as
parsing the string with all its trailing slashes removed. -/
theorem c9_all_trailing_slashes_stripped :
    (∀ (s : List Char) (n : Nat),
      parse_str_to_bytes (s ++ List.replicate n '/')
        = parse_str_to_bytes (trimRightSlashes s)) ∧
    parse_str_to_bytes "/ip4/1.2.3.4///".toList = parse_str_to_bytes "/ip4/1.2.3.4".toList := by
  constructor
  · intro s n
    simp only [parse_str_to_bytes, trim_append_replicate, trim_idem]
  · decide

/-- C10: the empty string and every all-slash string are accepted and
parse to the empty byte buffer (zero records). -/
theorem c10_empty_and_all_slash_accepted :
    parse_str_to_bytes [] = .ok [] ∧
    ∀ n, parse_str_to_bytes (List.replicate n '/') = .ok [] := by
  constructor
  · decide
  · intro n
    have h1 : trimRightSlashes (List.replicate n '/') = [] := by
      have := trim_append_replicate [] n
      simpa using this
    simp only [parse_str_to_bytes, h1]
    decide
